import Mathlib

/-!
Shallow embedding of the `order-up` producer core
(`src/producer-python/event_generator.py`, `src/producer-python/edge_case_injector.py`,
pattern catalogue from `src/producer-python/config.py`).

Modelling conventions:
* Python's seeded global PRNG (`random` module, Mersenne Twister) is modelled as an
  abstract draw stream `Rng`: a function `Nat → Nat` together with a draw counter.
  `random.random()` maps a raw draw into `[0,1)` over a fixed denominator,
  `random.uniform`, `random.randint`, `random.choice`, `random.shuffle`
  (Fisher-Yates, one draw per position) are derived draws, exactly one raw draw
  per underlying call, in the source's call order.
* `Faker` (seeded by `Faker.seed(seed)`) is modelled as a second stream indexed by a
  counter; `faker.uuid4()[:8]` slices are modelled as pairwise distinct opaque strings
  (a deterministic function of the seed and the draw index).
* `uuid.uuid4()` in `_create_event` draws from OS entropy (`os.urandom`), which the
  seed does NOT control; it is modelled as a separate `entropy` stream that is an
  independent input, not derived from the seed.
* `datetime` values are rational seconds since the epoch; `timedelta(seconds=s)` is
  addition; `int(dt.timestamp() * 1000)` is truncation toward zero (`pyInt`).
* Python floats are modelled as rationals; `round(x, 2)` is `roundQ2`.
* `copy.deepcopy` of an event record is the identity on values.
* The injector's `print` calls are side effects with no bearing on the returned data
  and are not modelled.
-/

namespace OrderUp

/-! ## Definitions: the embedded data model and operations -/

/-- The seeded PRNG (`random` module state): an abstract stream of raw draws plus a
draw counter.  Deterministic given the stream. -/
structure Rng where
  stream : Nat → Nat
  idx : Nat

/-- Consume one raw draw. -/
def Rng.next (r : Rng) : Nat × Rng :=
  (r.stream r.idx, ⟨r.stream, r.idx + 1⟩)

/-- Denominator used to map raw draws into `[0,1)` (Python floats carry 53 bits). -/
def floatDenom : Nat := 2 ^ 53

/-- Interpretation of a raw draw as `random.random()`, a rational in `[0,1)`
(written with `Rat.divInt` so that it evaluates by kernel reduction). -/
def unitFloat (v : Nat) : ℚ :=
  Rat.divInt (Int.ofNat (v % floatDenom)) (Int.ofNat floatDenom)

/-- `random.random()`. -/
def randFloat (r : Rng) : ℚ × Rng :=
  let p := r.next
  (unitFloat p.1, p.2)

/-- `random.uniform(a, b)`: `a + (b-a) * random()`. -/
def randUniform (a b : ℚ) (r : Rng) : ℚ × Rng :=
  let p := randFloat r
  (a + (b - a) * p.1, p.2)

/-- `random.randint(a, b)` for `a ≤ b`: an integer in `[a, b]`. -/
def randIntR (a b : Nat) (r : Rng) : Nat × Rng :=
  let p := r.next
  (a + p.1 % (b - a + 1), p.2)

/-- `random.choice(l)` for nonempty `l` (the default is never used at call sites,
which all pass nonempty literals or a checked-nonempty ledger). -/
def randChoice {α : Type} (l : List α) (d : α) (r : Rng) : α × Rng :=
  let p := r.next
  (l.getD (p.1 % l.length) d, p.2)

/-- `int(q)` in Python: truncation toward zero. -/
def pyInt (q : ℚ) : Int := if 0 ≤ q then ⌊q⌋ else -⌊-q⌋

/-- Python `round(x, 2)`: round to two decimal places. -/
def roundQ2 (q : ℚ) : ℚ := (round (q * 100) : ℤ) / 100

/-- The event-type enumeration (`event_type` strings of the source, §3 of the spec;
the `ValueError` branch of `_create_payload` is unreachable on these seven values). -/
inductive EventType where
  | ORDER_CREATED
  | ORDER_ITEM_ADDED
  | ORDER_ITEM_REMOVED
  | ORDER_UPDATED
  | ORDER_CONFIRMED
  | ORDER_CANCELLED
  | ORDER_COMPLETED
deriving DecidableEq, Repr

/-- An entry of the per-order item ledger (the dict built in the
`ORDER_ITEM_ADDED` branch of `_create_payload`). -/
structure Item where
  item_id : String
  item_name : String
  quantity : Nat
  price : ℚ
deriving DecidableEq, Repr

/-- The tagged payload union (`_create_payload`'s per-type dicts). -/
inductive Payload where
  | created (customer_id restaurant_id initial_status : String)
  | updated (old_status new_status : String)
  | itemAdded (item : Item)
  | itemRemoved (item_id : String)
  | confirmed (confirmed_by : String) (estimated_delivery_ts : Int)
  | cancelled (cancelled_by : String) (reason : Option String)
  | completed (completed_ts : Int) (total_amount : ℚ)
deriving DecidableEq, Repr

/-- The `total_amount` field of an `ORDER_COMPLETED` payload, when present. -/
def Payload.totalAmount : Payload → Option ℚ
  | .completed _ t => some t
  | _ => none

/-- The event dict returned by `_create_event`. -/
structure EventRecord where
  event_id : String
  event_type : EventType
  event_ts : Int
  order_id : String
  payload : Payload
  schema_version : Nat
deriving DecidableEq, Repr

/-- A lifecycle pattern entry of `config.ORDER_PATTERNS`. -/
structure OrderPattern where
  name : String
  weight : ℚ
  events : List EventType
deriving DecidableEq, Repr

/-- `config.ORDER_PATTERNS`. -/
def ORDER_PATTERNS : List OrderPattern :=
  [ ⟨"HAPPY_PATH", 50/100,
      [.ORDER_CREATED, .ORDER_ITEM_ADDED, .ORDER_ITEM_ADDED, .ORDER_CONFIRMED,
       .ORDER_COMPLETED]⟩,
    ⟨"EARLY_CANCEL", 15/100,
      [.ORDER_CREATED, .ORDER_ITEM_ADDED, .ORDER_CANCELLED]⟩,
    ⟨"LATE_CANCEL", 10/100,
      [.ORDER_CREATED, .ORDER_ITEM_ADDED, .ORDER_CONFIRMED, .ORDER_CANCELLED]⟩,
    ⟨"COMPLEX_ORDER", 15/100,
      [.ORDER_CREATED, .ORDER_ITEM_ADDED, .ORDER_ITEM_ADDED, .ORDER_ITEM_REMOVED,
       .ORDER_ITEM_ADDED, .ORDER_CONFIRMED, .ORDER_COMPLETED]⟩,
    ⟨"WITH_UPDATES", 10/100,
      [.ORDER_CREATED, .ORDER_ITEM_ADDED, .ORDER_UPDATED, .ORDER_CONFIRMED,
       .ORDER_COMPLETED]⟩ ]

/-- `x[i], x[j] = x[j], x[i]` on a list (no-op when an index is out of range). -/
def swapList {α : Type} (l : List α) (i j : Nat) : List α :=
  match l.get? i, l.get? j with
  | some a, some b => (l.set i b).set j a
  | _, _ => l

/-- `random.shuffle` is the Fisher-Yates loop
`for i in reversed(range(1, len(x))): j = randrange(i + 1); swap x[i], x[j]`,
one raw draw per iteration.  `fyAux l r n` runs the iterations `i = n, …, 1`. -/
def fyAux {α : Type} (l : List α) (r : Rng) : Nat → List α × Rng
  | 0 => (l, r)
  | Nat.succ k =>
      let p := r.next
      let j := p.1 % (k + 2)
      fyAux (swapList l (k + 1) j) p.2 k

/-- `random.shuffle(l)`. -/
def fisherYates {α : Type} (l : List α) (r : Rng) : List α × Rng :=
  fyAux l r (l.length - 1)

/-- The injector's constructor arguments (`EdgeCaseInjector.__init__`). -/
structure EdgeCaseInjector where
  duplicate_probability : ℚ
  out_of_order_probability : ℚ
  late_arrival_probability : ℚ

/-- The per-event pass of `inject_edge_cases` (the `while i < len(events)` loop):
for each event, one `random.random()` draw decides duplication into `main_events`,
a second draw (always consumed) together with `i > 0` decides a copy into
`late_arrivals`. -/
def injectPass (pdup plate : ℚ) : List EventRecord → Nat → Rng →
    List EventRecord × List EventRecord × Rng
  | [], _, r => ([], [], r)
  | e :: rest, i, r =>
      let p1 := randFloat r
      let dup : Bool := decide (p1.1 < pdup)
      let p2 := randFloat p1.2
      let late : Bool := decide (p2.1 < plate ∧ 0 < i)
      let rec0 := injectPass pdup plate rest (i + 1) p2.2
      ((if dup then [e, e] else [e]) ++ rec0.1,
       (if late then [e] else []) ++ rec0.2.1,
       rec0.2.2)

/-- The whole-sequence out-of-order step of `inject_edge_cases` (its step 3): one
always consumed `random.random()` draw and, when it clears `p_oo` and `main_events`
has more than 2 elements, a windowed in-place shuffle
(`shuffle_size = randint(2, min(5, len))`, `shuffle_start = randint(0, len - size)`,
slice out, `random.shuffle`, splice back). -/
def shufflePhase (p_oo : ℚ) (main0 : List EventRecord) (r : Rng) :
    List EventRecord × Rng :=
  let p3 := randFloat r
  if p3.1 < p_oo ∧ 2 < main0.length then
    let ps := randIntR 2 (min 5 main0.length) p3.2
    let shuffle_size := ps.1
    let pst := randIntR 0 (main0.length - shuffle_size) ps.2
    let shuffle_start := pst.1
    let sect := (main0.drop shuffle_start).take shuffle_size
    let sh := fisherYates sect pst.2
    (main0.take shuffle_start ++ sh.1 ++ main0.drop (shuffle_start + shuffle_size),
     sh.2)
  else
    (main0, p3.2)

/-- `EdgeCaseInjector.inject_edge_cases`: the per-event pass, then the out-of-order
step on `main_events`; returns `(main_events, late_arrivals)` plus the PRNG. -/
def injectEdgeCases (inj : EdgeCaseInjector) (events : List EventRecord) (r : Rng) :
    List EventRecord × List EventRecord × Rng :=
  let pass := injectPass inj.duplicate_probability inj.late_arrival_probability events 0 r
  let sh := shufflePhase inj.out_of_order_probability pass.1 pass.2.2
  (sh.1, pass.2.1, sh.2)

/-- Model of `self.faker.uuid4()[:8]`: the `k`-th uuid slice drawn from a Faker
instance seeded with `seed`.  The slices are modelled as pairwise distinct opaque
strings, deterministic in `(seed, k)`. -/
def fakerU (seed k : Nat) : String :=
  String.mk (Nat.toDigits 10 seed) ++ String.mk (List.replicate (k + 1) 'x')

/-- Model of `self.faker.word().title()` (only ever used titled), the `k`-th word
drawn from a Faker instance seeded with `seed`. -/
def fakerWord (seed k : Nat) : String :=
  String.mk (Nat.toDigits 10 seed) ++ String.mk (List.replicate (k + 1) 'w')

/-- Lookup in the `self.order_items` dict. -/
def lookupEntry (k : String) : List (String × List Item) → Option (List Item)
  | [] => none
  | e :: rest => if e.1 = k then some e.2 else lookupEntry k rest

/-- `self.order_items.get(order_id, [])`; also models the truthiness test
`if self.order_items.get(order_id):` (empty iff the entry is missing or empty). -/
def lookupD (k : String) (m : List (String × List Item)) : List Item :=
  (lookupEntry k m).getD []

/-- Store/overwrite a key of the `self.order_items` dict. -/
def setEntry (k : String) (v : List Item) :
    List (String × List Item) → List (String × List Item)
  | [] => [(k, v)]
  | e :: rest => if e.1 = k then (k, v) :: rest else e :: setEntry k v rest

/-- Python's `list.remove(a)`: drop the first element equal to `a`. -/
def removeFirstEq (a : Item) : List Item → List Item
  | [] => []
  | x :: xs => if x = a then xs else x :: removeFirstEq a xs

/-- Drop the first item carrying the given `item_id` (used to read the
`ORDER_ITEM_REMOVED` payloads back off an event sequence). -/
def removeFirstById (pid : String) : List Item → List Item
  | [] => []
  | x :: xs => if x.item_id = pid then xs else x :: removeFirstById pid xs

/-- `sum(item['price'] * item['quantity'] for item in …)`. -/
def itemsTotal (l : List Item) : ℚ :=
  (l.map (fun it => it.price * (it.quantity : ℚ))).sum

/-- The cancellation reasons list of the `ORDER_CANCELLED` branch. -/
def cancelReasons : List (Option String) :=
  [some "Customer requested cancellation", some "Restaurant unavailable",
   some "Payment failed", some "Item out of stock", none]

/-- The generator's state during one `generate_order_lifecycle` call: the seeded
PRNG, the Faker draw counter, the OS-entropy stream behind `uuid.uuid4()` with its
draw counter, the `self.order_items` dict, and the loop locals `current_ts`
(rational seconds) and `current_status`. -/
structure LState where
  rng : Rng
  fakerIdx : Nat
  entropy : Nat → String
  entropyIdx : Nat
  order_items : List (String × List Item)
  currentTs : ℚ
  status : String

/-- `EventGenerator._create_payload` (dispatch on the event type; the source's
`ValueError` branch is unreachable on `EventType`). -/
def createPayload (seed : Nat) (oid cid rid : String) (ts2 : ℚ) (st : LState)
    (et : EventType) : Payload × LState :=
  match et with
  | .ORDER_CREATED => (.created cid rid "PENDING", st)
  | .ORDER_UPDATED =>
      let p := randChoice ["PENDING", "CONFIRMED"] "PENDING" st.rng
      (.updated st.status p.1, {st with rng := p.2})
  | .ORDER_ITEM_ADDED =>
      let iid := "item_" ++ fakerU seed st.fakerIdx
      let wname := fakerWord seed (st.fakerIdx + 1)
      let pc := randChoice ["Burger", "Pizza", "Salad", "Pasta", "Taco"] "Burger" st.rng
      let pq := randIntR 1 5 pc.2
      let pp := randUniform (599/100) (2999/100) pq.2
      let item : Item := ⟨iid, wname ++ " " ++ pc.1, pq.1, roundQ2 pp.1⟩
      (.itemAdded item,
       {st with rng := pp.2, fakerIdx := st.fakerIdx + 2,
                order_items :=
                  setEntry oid (lookupD oid st.order_items ++ [item]) st.order_items})
  | .ORDER_ITEM_REMOVED =>
      match lookupD oid st.order_items with
      | [] =>
          (.itemRemoved ("item_" ++ fakerU seed st.fakerIdx),
           {st with fakerIdx := st.fakerIdx + 1})
      | x :: xs =>
          let p := randChoice (x :: xs) x st.rng
          (.itemRemoved p.1.item_id,
           {st with rng := p.2,
                    order_items := setEntry oid (removeFirstEq p.1 (x :: xs)) st.order_items})
  | .ORDER_CONFIRMED =>
      let cb := "user_" ++ fakerU seed st.fakerIdx
      let pm := randIntR 30 90 st.rng
      (.confirmed cb (pyInt ((ts2 + (pm.1 : ℚ) * 60) * 1000)),
       {st with rng := pm.2, fakerIdx := st.fakerIdx + 1})
  | .ORDER_CANCELLED =>
      let cb := "user_" ++ fakerU seed st.fakerIdx
      let p := randChoice cancelReasons none st.rng
      (.cancelled cb p.1, {st with rng := p.2, fakerIdx := st.fakerIdx + 1})
  | .ORDER_COMPLETED =>
      let total := itemsTotal (lookupD oid st.order_items)
      if total = 0 then
        let p := randUniform (1599/100) (9999/100) st.rng
        (.completed (pyInt (ts2 * 1000)) (roundQ2 p.1), {st with rng := p.2})
      else
        (.completed (pyInt (ts2 * 1000)) total, st)

/-- `EventGenerator._create_event`: a fresh `uuid.uuid4()` event id off the OS
entropy stream, the millisecond timestamp, and the payload. -/
def createEvent (seed : Nat) (oid cid rid : String) (et : EventType) (ts2 : ℚ)
    (st : LState) : EventRecord × LState :=
  let eid := st.entropy st.entropyIdx
  let st1 := {st with entropyIdx := st.entropyIdx + 1}
  let pp := createPayload seed oid cid rid ts2 st1 et
  (⟨eid, et, pyInt (ts2 * 1000), oid, pp.1, 1⟩, pp.2)

/-- One iteration of the `for event_type in pattern['events']` loop: advance
`current_ts` by `random.uniform(1, 30)` seconds, create the event, then update the
tracked status for CONFIRMED / CANCELLED / COMPLETED (only). -/
def genStep (seed : Nat) (oid cid rid : String) (st : LState) (et : EventType) :
    EventRecord × LState :=
  let pg := randUniform 1 30 st.rng
  let ts2 := st.currentTs + pg.1
  let st1 := {st with rng := pg.2, currentTs := ts2}
  let pe := createEvent seed oid cid rid et ts2 st1
  let st2 := pe.2
  let newStatus :=
    if et = .ORDER_CONFIRMED then "CONFIRMED"
    else if et = .ORDER_CANCELLED then "CANCELLED"
    else if et = .ORDER_COMPLETED then "COMPLETED"
    else st2.status
  (pe.1, {st2 with status := newStatus})

/-- The whole pattern walk. -/
def runSteps (seed : Nat) (oid cid rid : String) :
    List EventType → LState → List EventRecord × LState
  | [], st => ([], st)
  | et :: rest, st =>
      let p := genStep seed oid cid rid st et
      let q := runSteps seed oid cid rid rest p.2
      (p.1 :: q.1, q.2)

/-- `random.choices(items, weights, k=1)[0]`: one uniform draw scaled by the total
weight, resolved against the cumulative weights (first item whose cumulative weight
exceeds the target). -/
def pickWeighted (d : OrderPattern) : List OrderPattern → ℚ → OrderPattern
  | [], _ => d
  | p :: rest, t => if t < p.weight then p else pickWeighted d rest (t - p.weight)

/-- Fallback pattern for `pickWeighted` (never selected: the catalogue is nonempty
and the scaled draw lies below the total weight). -/
def emptyPattern : OrderPattern := ⟨"", 0, []⟩

/-- The persistent state of an `EventGenerator` instance: the seed (driving the
Faker stream), the seeded PRNG, the Faker draw counter, the OS entropy stream with
its counter, and the `self.order_items` dict. -/
structure EventGenerator where
  seed : Nat
  rng : Rng
  fakerIdx : Nat
  entropy : Nat → String
  entropyIdx : Nat
  order_items : List (String × List Item)

/-- Abstract model of the Mersenne Twister output stream for a given seed (the
claims never depend on the concrete values, only on its being a deterministic
function of the seed). -/
def seededStream (seed : Nat) : Nat → Nat :=
  fun k => (seed + 1) * (k + 1)

/-- `EventGenerator.__init__(seed)`: `Faker.seed(seed)` and `random.seed(seed)`
determine the Faker and PRNG streams; the OS entropy behind `uuid.uuid4()` is an
independent input the seed does not control; `self.order_items = {}`. -/
def mkEventGenerator (seed : Nat) (entropy : Nat → String) : EventGenerator :=
  ⟨seed, ⟨seededStream seed, 0⟩, 0, entropy, 0, []⟩

/-- `EventGenerator.generate_order_lifecycle(order_id, base_timestamp)`; the base
timestamp is in rational seconds since the epoch.  Returns the event list and the
mutated generator instance. -/
def generateOrderLifecycle (g : EventGenerator) (oid : String) (base_timestamp : ℚ) :
    List EventRecord × EventGenerator :=
  let pu := randFloat g.rng
  let totalW := (ORDER_PATTERNS.map OrderPattern.weight).sum
  let pattern := pickWeighted emptyPattern ORDER_PATTERNS (pu.1 * totalW)
  let oi := setEntry oid [] g.order_items
  let cid := "cust_" ++ fakerU g.seed g.fakerIdx
  let rid := "rest_" ++ fakerU g.seed (g.fakerIdx + 1)
  let st0 : LState :=
    ⟨pu.2, g.fakerIdx + 2, g.entropy, g.entropyIdx, oi, base_timestamp, "PENDING"⟩
  let res := runSteps g.seed oid cid rid pattern.events st0
  (res.1,
   ⟨g.seed, res.2.rng, res.2.fakerIdx, res.2.entropy, res.2.entropyIdx,
    res.2.order_items⟩)

/-- Spec-side ledger reconstruction: one event's effect on the running list of
items added and not yet removed. -/
def ledgerStep (acc : List Item) (e : EventRecord) : List Item :=
  match e.payload with
  | .itemAdded it => acc ++ [it]
  | .itemRemoved pid => removeFirstById pid acc
  | _ => acc

/-- Spec-side: the items added and not removed over an event sequence. -/
def remainingAfter (evs : List EventRecord) : List Item :=
  evs.foldl ledgerStep []

/-- Per-event-pass shape: each input event contributes one or two adjacent copies
to the main stream, per its duplication flag. -/
def dupExpand : List (EventRecord × Bool) → List EventRecord
  | [] => []
  | pr :: rest => (if pr.2 then [pr.1, pr.1] else [pr.1]) ++ dupExpand rest

/-- A concrete event record used by the closed scenario theorems. -/
def sampleEvent (i : Nat) : EventRecord :=
  ⟨toString i, .ORDER_CREATED, (i : Int), "o", .created "c" "r" "PENDING", 1⟩

/-- The all-zero draw stream. -/
def rngZero : Rng := ⟨fun _ => 0, 0⟩

/-- A draw stream whose only nonzero value sits at the Fisher-Yates draw consumed
for a 3-event, no-duplicate, forced-shuffle run (index 9: after six per-event
draws, the `p_oo` gate draw, the window-size draw and the offset draw), where the
value 1 makes the 2-element shuffle pick the identity permutation. -/
def rngC7 : Rng := ⟨fun k => if k = 9 then 1 else 0, 0⟩

/-- A concrete loop state (status PENDING) whose next two raw draws are 1, so the
`ORDER_UPDATED` payload draw picks `new_status = "CONFIRMED"`. -/
def stC8 : LState :=
  ⟨⟨fun _ => 1, 0⟩, 0, fun _ => "e", 0, [("o", [])], 0, "PENDING"⟩

/-- Two loop states that agree on everything a `generate` call for `oid` can
observe: all scalar components, and the dict as seen through key `oid`. -/
def DictAgree (oid : String) (st1 st2 : LState) : Prop :=
  st1.rng = st2.rng ∧ st1.fakerIdx = st2.fakerIdx ∧ st1.entropy = st2.entropy ∧
  st1.entropyIdx = st2.entropyIdx ∧
  lookupD oid st1.order_items = lookupD oid st2.order_items ∧
  st1.currentTs = st2.currentTs ∧ st1.status = st2.status

/-- A constant OS-entropy stream for concrete runs. -/
def eConst : Nat → String := fun _ => "e"

/-- An event record with its `event_id` blanked out (all seed-determined fields
kept). -/
def eraseId (e : EventRecord) : EventRecord :=
  ⟨"", e.event_type, e.event_ts, e.order_id, e.payload, e.schema_version⟩

/-- Two loop states that agree on every component except the OS entropy stream
behind `uuid.uuid4()`. -/
def EntropyAgree (st1 st2 : LState) : Prop :=
  st1.rng = st2.rng ∧ st1.fakerIdx = st2.fakerIdx ∧
  st1.entropyIdx = st2.entropyIdx ∧ st1.order_items = st2.order_items ∧
  st1.currentTs = st2.currentTs ∧ st1.status = st2.status

/-- An OS entropy stream; differs from `entB` so the `uuid.uuid4()` results of two
otherwise identical runs differ. -/
def entA : Nat → String := fun k => "a" ++ toString k

/-- A second OS entropy stream. -/
def entB : Nat → String := fun k => "b" ++ toString k

/-- The invariant tying the ledger held in `self.order_items[oid]` to the event
prefix emitted so far: the ledger is the spec-side "added and not removed" list,
its entries have positive quantity and a price of at least 5.99, their ids are
item-prefixed Faker slices drawn at earlier Faker indices, and those ids are
pairwise distinct. -/
def LedgerInv (seed : Nat) (oid : String) (st : LState)
    (evs : List EventRecord) : Prop :=
  lookupD oid st.order_items = remainingAfter evs ∧
  (∀ it ∈ lookupD oid st.order_items,
    (1 ≤ it.quantity ∧ (599/100 : ℚ) ≤ it.price) ∧
    ∃ j, j < st.fakerIdx ∧ it.item_id = "item_" ++ fakerU seed j) ∧
  ((lookupD oid st.order_items).map Item.item_id).Nodup

/-! ## Theorems -/

theorem unitFloat_eq_div (v : Nat) :
    unitFloat v = ((v % floatDenom : Nat) : ℚ) / ((floatDenom : Nat) : ℚ) := by
  unfold unitFloat
  rw [Rat.divInt_eq_div]
  rfl

theorem unitFloat_nonneg (v : Nat) : 0 ≤ unitFloat v := by
  rw [unitFloat_eq_div]
  positivity

theorem unitFloat_lt_one (v : Nat) : unitFloat v < 1 := by
  rw [unitFloat_eq_div]
  unfold floatDenom
  rw [div_lt_one (by positivity)]
  exact_mod_cast Nat.mod_lt v (by norm_num)

theorem randUniform_fst_ge (a b : ℚ) (r : Rng) (hab : a ≤ b) :
    a ≤ (randUniform a b r).1 := by
  unfold randUniform
  have h1 := unitFloat_nonneg (randFloat r).1.num.toNat
  simp only [randFloat]
  nlinarith [unitFloat_nonneg ((Rng.next r).1), unitFloat_lt_one ((Rng.next r).1)]

theorem pyInt_lt_add_one (q : ℚ) : (pyInt q : ℚ) < q + 1 := by
  unfold pyInt
  split
  · calc ((⌊q⌋ : ℚ)) ≤ q := Int.floor_le q
      _ < q + 1 := by linarith
  · have h := Int.sub_one_lt_floor (-q)
    push_cast
    linarith

theorem sub_one_lt_pyInt (q : ℚ) : q - 1 < (pyInt q : ℚ) := by
  unfold pyInt
  split
  · have h := Int.sub_one_lt_floor q
    linarith
  · have h := Int.floor_le (-q)
    push_cast
    linarith

/-- Truncation respects a gap of at least 2. -/
theorem pyInt_lt_pyInt {x y : ℚ} (h : x + 2 ≤ y) : pyInt x < pyInt y := by
  have h1 := pyInt_lt_add_one x
  have h2 := sub_one_lt_pyInt y
  have : (pyInt x : ℚ) < (pyInt y : ℚ) := by linarith
  exact_mod_cast this

theorem roundQ2_ge {a q : ℚ} (ha : a * 100 = ((a * 100 : ℚ).num : ℚ)) (h : a ≤ q) :
    a ≤ roundQ2 q := by
  unfold roundQ2
  rw [le_div_iff₀ (by norm_num : (0 : ℚ) < 100)]
  have hfloor : (a * 100 : ℚ).num ≤ round (q * 100) := by
    have h1 : ((a * 100 : ℚ).num : ℚ) ≤ q * 100 := by rw [← ha]; nlinarith
    have h2 : (a * 100 : ℚ).num ≤ ⌊q * 100⌋ := Int.le_floor.mpr h1
    calc (a * 100 : ℚ).num ≤ ⌊q * 100⌋ := h2
      _ ≤ round (q * 100) := by
          rw [round_eq]
          exact Int.floor_mono (by linarith)
  calc a * 100 = ((a * 100 : ℚ).num : ℚ) := ha
    _ ≤ (round (q * 100) : ℚ) := by exact_mod_cast hfloor

theorem fakerU_inj (seed : Nat) {k1 k2 : Nat} (h : fakerU seed k1 = fakerU seed k2) :
    k1 = k2 := by
  unfold fakerU at h
  have hd : (Nat.toDigits 10 seed ++ List.replicate (k1 + 1) 'x')
      = (Nat.toDigits 10 seed ++ List.replicate (k2 + 1) 'x') := by
    have := congrArg String.data h
    simpa [String.data_append] using this
  have hr := List.append_cancel_left hd
  have hlen := congrArg List.length hr
  simpa using hlen

theorem get_cons_set_perm {α : Type} :
    ∀ (t : List α) (k : Nat) (hk : k < t.length) (a : α),
      (t.get ⟨k, hk⟩ :: t.set k a).Perm (a :: t)
  | b :: t, 0, _, a => by
      simpa using List.Perm.swap a b t
  | b :: t, k + 1, hk, a => by
      have hk2 : k < t.length := by simpa using Nat.lt_of_succ_lt_succ hk
      have h1 : ((b :: t).get ⟨k + 1, hk⟩ :: (b :: t).set (k + 1) a)
          = t.get ⟨k, hk2⟩ :: b :: t.set k a := by simp
      rw [h1]
      exact (List.Perm.swap b (t.get ⟨k, hk2⟩) (t.set k a)).trans
        ((List.Perm.cons b (get_cons_set_perm t k hk2 a)).trans
          (List.Perm.swap a b t))

theorem set_self_id {α : Type} (l : List α) (i : Nat) (h : i < l.length) :
    l.set i (l.get ⟨i, h⟩) = l := by
  apply List.ext_getElem <;> simp [List.getElem_set]
  intro n h1 h2 hin
  subst hin
  rfl

theorem swap_lt_perm {α : Type} :
    ∀ (l : List α) (i j : Nat) (hi : i < l.length) (hj : j < l.length), i < j →
      ((l.set i (l.get ⟨j, hj⟩)).set j (l.get ⟨i, hi⟩)).Perm l
  | c :: t, 0, j + 1, hi, hj, _ => by
      have hj2 : j < t.length := by simpa using Nat.lt_of_succ_lt_succ hj
      have heq : (((c :: t).set 0 ((c :: t).get ⟨j + 1, hj⟩)).set (j + 1)
            ((c :: t).get ⟨0, hi⟩))
          = t.get ⟨j, hj2⟩ :: t.set j c := by simp
      rw [heq]
      exact get_cons_set_perm t j hj2 c
  | c :: t, i + 1, j + 1, hi, hj, hij => by
      have hi2 : i < t.length := by simpa using Nat.lt_of_succ_lt_succ hi
      have hj2 : j < t.length := by simpa using Nat.lt_of_succ_lt_succ hj
      have heq : (((c :: t).set (i + 1) ((c :: t).get ⟨j + 1, hj⟩)).set (j + 1)
            ((c :: t).get ⟨i + 1, hi⟩))
          = c :: ((t.set i (t.get ⟨j, hj2⟩)).set j (t.get ⟨i, hi2⟩)) := by simp
      rw [heq]
      exact List.Perm.cons c
        (swap_lt_perm t i j hi2 hj2 (Nat.lt_of_succ_lt_succ hij))

theorem swapList_eq {α : Type} (l : List α) (i j : Nat)
    (hi : i < l.length) (hj : j < l.length) :
    swapList l i j = (l.set i (l.get ⟨j, hj⟩)).set j (l.get ⟨i, hi⟩) := by
  unfold swapList
  rw [List.get?_eq_get hi, List.get?_eq_get hj]

theorem swapList_perm {α : Type} (l : List α) (i j : Nat)
    (hi : i < l.length) (hj : j < l.length) : (swapList l i j).Perm l := by
  rw [swapList_eq l i j hi hj]
  rcases lt_trichotomy i j with h | h | h
  · exact swap_lt_perm l i j hi hj h
  · subst h
    rw [List.set_set, set_self_id]
  · rw [List.set_comm _ _ _ (by omega : i ≠ j)]
    exact swap_lt_perm l j i hj hi h

theorem fyAux_perm {α : Type} :
    ∀ (n : Nat) (l : List α) (r : Rng), n < l.length → ((fyAux l r n).1).Perm l
  | 0, l, _, _ => List.Perm.refl l
  | Nat.succ k, l, r, h => by
      have hj : (r.next.1 % (k + 2)) < l.length :=
        lt_of_lt_of_le (Nat.mod_lt _ (by omega)) (by omega)
      have hperm := swapList_perm l (k + 1) (r.next.1 % (k + 2)) h hj
      have hlen := hperm.length_eq
      have ih := fyAux_perm k (swapList l (k + 1) (r.next.1 % (k + 2))) r.next.2
        (by omega)
      simpa [fyAux] using ih.trans hperm

theorem fisherYates_perm {α : Type} (l : List α) (r : Rng) :
    ((fisherYates l r).1).Perm l := by
  unfold fisherYates
  match l with
  | [] => simp [fyAux]
  | c :: t => exact fyAux_perm (List.length (c :: t) - 1) (c :: t) r (by simp)

theorem fisherYates_length {α : Type} (l : List α) (r : Rng) :
    ((fisherYates l r).1).length = l.length :=
  (fisherYates_perm l r).length_eq

theorem injectPass_length_bounds (pdup plate : ℚ) :
    ∀ (events : List EventRecord) (i : Nat) (r : Rng),
      events.length ≤ (injectPass pdup plate events i r).1.length ∧
      (injectPass pdup plate events i r).1.length ≤ 2 * events.length
  | [], _, _ => by simp [injectPass]
  | e :: rest, i, r => by
      have ih := injectPass_length_bounds pdup plate rest (i + 1)
        (randFloat (randFloat r).2).2
      simp only [injectPass, List.length_append, List.length_cons]
      split <;> simp <;> omega

theorem injectPass_input_sublist (pdup plate : ℚ) :
    ∀ (events : List EventRecord) (i : Nat) (r : Rng),
      events.Sublist (injectPass pdup plate events i r).1
  | [], _, _ => by simp [injectPass]
  | e :: rest, i, r => by
      have ih := injectPass_input_sublist pdup plate rest (i + 1)
        (randFloat (randFloat r).2).2
      simp only [injectPass]
      split
      · exact List.Sublist.cons₂ e (List.Sublist.cons e ih)
      · exact List.Sublist.cons₂ e ih

theorem injectPass_late_sublist (pdup plate : ℚ) :
    ∀ (events : List EventRecord) (i : Nat) (r : Rng),
      (injectPass pdup plate events i r).2.1.Sublist events
  | [], _, _ => by simp [injectPass]
  | e :: rest, i, r => by
      have ih := injectPass_late_sublist pdup plate rest (i + 1)
        (randFloat (randFloat r).2).2
      simp only [injectPass]
      split
      · exact List.Sublist.cons₂ e ih
      · exact List.Sublist.cons e ih

/-- With the initial index 0 the first input event never reaches `late_arrivals`:
the late stream is a subsequence of the input minus its first element. -/
theorem injectPass_late_sublist_zero (pdup plate : ℚ) :
    ∀ (events : List EventRecord) (r : Rng),
      (injectPass pdup plate events 0 r).2.1.Sublist (events.drop 1)
  | [], _ => by simp [injectPass]
  | e :: rest, r => by
      have ih := injectPass_late_sublist pdup plate rest 1
        (randFloat (randFloat r).2).2
      simp only [injectPass]
      simpa using ih

theorem injectPass_main_shape (pdup plate : ℚ) :
    ∀ (events : List EventRecord) (i : Nat) (r : Rng),
      ∃ flags : List Bool, flags.length = events.length ∧
        (injectPass pdup plate events i r).1 = dupExpand (events.zip flags)
  | [], _, _ => ⟨[], by simp [injectPass, dupExpand]⟩
  | e :: rest, i, r => by
      obtain ⟨fl, hlen, hmain⟩ := injectPass_main_shape pdup plate rest (i + 1)
        (randFloat (randFloat r).2).2
      refine ⟨decide ((randFloat r).1 < pdup) :: fl, by simp [hlen], ?_⟩
      simp only [injectPass, List.zip_cons_cons, dupExpand, hmain]
      rfl

theorem shufflePhase_perm (p_oo : ℚ) (main0 : List EventRecord) (r : Rng) :
    ((shufflePhase p_oo main0 r).1).Perm main0 := by
  simp only [shufflePhase]
  split
  case isFalse => exact List.Perm.refl main0
  case isTrue h =>
    set v1 := (randIntR 2 (min 5 main0.length) (randFloat r).2).1 with hv1
    set s := (randIntR 0 (main0.length - v1)
      (randIntR 2 (min 5 main0.length) (randFloat r).2).2).1 with hs
    have hdecomp : main0
        = main0.take s ++ ((main0.drop s).take v1 ++ main0.drop (s + v1)) := by
      conv_lhs => rw [← List.take_append_drop s main0]
      congr 1
      conv_lhs => rw [← List.take_append_drop v1 (main0.drop s)]
      congr 1
      rw [List.drop_drop, Nat.add_comm]
    dsimp only
    rw [List.append_assoc]
    conv_rhs => rw [hdecomp]
    exact List.Perm.append_left (main0.take s)
      (List.Perm.append_right (main0.drop (s + v1))
        (fisherYates_perm ((main0.drop s).take v1) _))

/-- The out-of-order phase either leaves the main stream unchanged, or (only when it
has more than 2 elements) permutes exactly one contiguous window of size between 2
and `min 5 len` at a valid offset, fixing everything outside the window. -/
theorem shufflePhase_window (p_oo : ℚ) (main0 : List EventRecord) (r : Rng) :
    (shufflePhase p_oo main0 r).1 = main0 ∨
    (2 < main0.length ∧
      ∃ s k, 2 ≤ k ∧ k ≤ min 5 main0.length ∧ s + k ≤ main0.length ∧
        ((shufflePhase p_oo main0 r).1).take s = main0.take s ∧
        ((shufflePhase p_oo main0 r).1).drop (s + k) = main0.drop (s + k) ∧
        ((((shufflePhase p_oo main0 r).1).drop s).take k).Perm
          ((main0.drop s).take k)) := by
  simp only [shufflePhase]
  split
  case isFalse => exact Or.inl rfl
  case isTrue h =>
    right
    refine ⟨h.2, ?_⟩
    set L := main0.length with hL
    have hm3 : 3 ≤ min 5 L := le_min (by norm_num) h.2
    have hmL : min 5 L ≤ L := min_le_right 5 L
    set v1 := (randIntR 2 (min 5 L) (randFloat r).2).1 with hv1
    set s := (randIntR 0 (L - v1) (randIntR 2 (min 5 L) (randFloat r).2).2).1 with hs
    have hv1e : v1 = 2 + (randFloat r).2.next.1 % (min 5 L - 2 + 1) := by
      rw [hv1]
      simp only [randIntR]
    have hv1b : 2 ≤ v1 ∧ v1 ≤ min 5 L := by
      have := Nat.mod_lt ((randFloat r).2.next.1) (y := min 5 L - 2 + 1) (by omega)
      omega
    have hse : s = 0 + (randIntR 2 (min 5 L) (randFloat r).2).2.next.1 % (L - v1 - 0 + 1) := by
      rw [hs]
      simp only [randIntR]
    have hsb : s ≤ L - v1 := by
      have := Nat.mod_lt ((randIntR 2 (min 5 L) (randFloat r).2).2.next.1)
        (y := L - v1 - 0 + 1) (by omega)
      omega
    have hskL : s + v1 ≤ L := by omega
    have hlenA : (main0.take s).length = s := by
      rw [List.length_take]
      omega
    have hlenW : ((main0.drop s).take v1).length = v1 := by
      rw [List.length_take, List.length_drop]
      omega
    have hlenB : ((fisherYates ((main0.drop s).take v1)
        (randIntR 0 (L - v1) (randIntR 2 (min 5 L) (randFloat r).2).2).2).1).length
        = v1 := by
      rw [fisherYates_length]
      exact hlenW
    refine ⟨s, v1, hv1b.1, hv1b.2, hskL, ?_, ?_, ?_⟩
    · dsimp only
      rw [List.append_assoc, List.take_left' hlenA]
    · dsimp only
      have hAB : ((main0.take s) ++ (fisherYates ((main0.drop s).take v1)
          (randIntR 0 (L - v1) (randIntR 2 (min 5 L) (randFloat r).2).2).2).1).length
          = s + v1 := by
        rw [List.length_append, hlenA, hlenB]
      rw [List.drop_left' hAB]
    · dsimp only
      rw [List.append_assoc, List.drop_left' hlenA, List.take_left' hlenB]
      exact fisherYates_perm ((main0.drop s).take v1) _

/-- C4: for every input sequence, the late stream is a sub-multiset of the input by
event_id — at most one late copy per input event (it is a subsequence of the input
minus its first element, so in particular no event_id absent from the input occurs,
and no copy of the first input event is ever scheduled late) — and every event_id
occurring in the late stream also occurs at least once in the main stream. -/
theorem c4_late_stream_contained (inj : EdgeCaseInjector) (events : List EventRecord)
    (r : Rng) :
    ((injectEdgeCases inj events r).2.1).Sublist (events.drop 1) ∧
    (∀ s : String,
      ((injectEdgeCases inj events r).2.1.map EventRecord.event_id).count s
        ≤ (events.map EventRecord.event_id).count s) ∧
    (∀ e ∈ (injectEdgeCases inj events r).2.1,
      e.event_id ∈ (injectEdgeCases inj events r).1.map EventRecord.event_id) := by
  have hlate : ((injectEdgeCases inj events r).2.1).Sublist (events.drop 1) :=
    injectPass_late_sublist_zero inj.duplicate_probability
      inj.late_arrival_probability events r
  refine ⟨hlate, ?_, ?_⟩
  · intro s
    have h1 : ((injectEdgeCases inj events r).2.1.map EventRecord.event_id).Sublist
        (events.map EventRecord.event_id) :=
      (hlate.map EventRecord.event_id).trans
        ((List.drop_sublist 1 events).map EventRecord.event_id)
    exact h1.count_le s
  · intro e he
    have h1 : e ∈ events := List.drop_subset 1 events (hlate.subset he)
    have h2 : e ∈ (injectPass inj.duplicate_probability
        inj.late_arrival_probability events 0 r).1 :=
      (injectPass_input_sublist _ _ events 0 r).subset h1
    have h3 : e ∈ (injectEdgeCases inj events r).1 :=
      ((shufflePhase_perm inj.out_of_order_probability _ _).mem_iff).mpr h2
    exact List.mem_map_of_mem EventRecord.event_id h3

/-- C5: in the per-event pass each event is appended to the main stream as two
adjacent copies (when its duplication draw clears `p_dup`) and otherwise once; for
a single input event with `p_dup = 1`, `p_late = 0`, `p_oo = 0`, the main stream is
exactly two copies of that event (same event_id, being value copies) and the late
stream is empty. -/
theorem c5_duplicate_policy (inj : EdgeCaseInjector) (events : List EventRecord)
    (r : Rng) :
    (∃ flags : List Bool, flags.length = events.length ∧
      (injectPass inj.duplicate_probability inj.late_arrival_probability events 0 r).1
        = dupExpand (events.zip flags)) ∧
    (∀ (e : EventRecord) (r2 : Rng),
      (injectEdgeCases ⟨1, 0, 0⟩ [e] r2).1 = [e, e] ∧
      (injectEdgeCases ⟨1, 0, 0⟩ [e] r2).2.1 = []) := by
  refine ⟨injectPass_main_shape _ _ events 0 r, ?_⟩
  intro e r2
  have h1 : (randFloat r2).1 < 1 := unitFloat_lt_one _
  have h2 : ¬ ((randFloat (randFloat r2).2).1 < 0) :=
    not_lt.mpr (unitFloat_nonneg _)
  constructor <;>
    simp [injectEdgeCases, injectPass, shufflePhase, h1, h2]

/-- C6: the out-of-order pass runs at most once, only when the main stream has more
than 2 elements; when it runs it permutes a contiguous window of size between 2 and
`min 5 len` at a valid offset and every element outside the window keeps its
position. -/
theorem c6_out_of_order_frame (inj : EdgeCaseInjector) (events : List EventRecord)
    (r : Rng) :
    (injectEdgeCases inj events r).1
      = (injectPass inj.duplicate_probability inj.late_arrival_probability
          events 0 r).1 ∨
    (2 < (injectPass inj.duplicate_probability inj.late_arrival_probability
          events 0 r).1.length ∧
      ∃ s k, 2 ≤ k ∧
        k ≤ min 5 (injectPass inj.duplicate_probability inj.late_arrival_probability
          events 0 r).1.length ∧
        s + k ≤ (injectPass inj.duplicate_probability inj.late_arrival_probability
          events 0 r).1.length ∧
        ((injectEdgeCases inj events r).1).take s
          = ((injectPass inj.duplicate_probability inj.late_arrival_probability
              events 0 r).1).take s ∧
        ((injectEdgeCases inj events r).1).drop (s + k)
          = ((injectPass inj.duplicate_probability inj.late_arrival_probability
              events 0 r).1).drop (s + k) ∧
        ((((injectEdgeCases inj events r).1).drop s).take k).Perm
          ((((injectPass inj.duplicate_probability inj.late_arrival_probability
              events 0 r).1).drop s).take k)) :=
  shufflePhase_window inj.out_of_order_probability
    (injectPass inj.duplicate_probability inj.late_arrival_probability events 0 r).1
    (injectPass inj.duplicate_probability inj.late_arrival_probability events 0 r).2.2

/-- C7 counterexample: a 3-event input with `p_dup = 0`, `p_late = 0`, `p_oo = 1`
and draws forcing the shuffle window to size 2 at offset 0 (first two conjuncts
evaluate the two `randint` draws the source makes, at the stream positions it
consumes them) can still return the main stream unchanged — the claimed swap of the
first two elements does not happen, because the in-window `random.shuffle` of a
2-element window may draw the identity permutation. -/
theorem c7_counterexample :
    (randIntR 2 (min 5 3) ⟨rngC7.stream, 7⟩).1 = 2 ∧
    (randIntR 0 (3 - 2) ⟨rngC7.stream, 8⟩).1 = 0 ∧
    (injectEdgeCases ⟨0, 1, 0⟩ [sampleEvent 1, sampleEvent 2, sampleEvent 3] rngC7).1
      = [sampleEvent 1, sampleEvent 2, sampleEvent 3] ∧
    (injectEdgeCases ⟨0, 1, 0⟩ [sampleEvent 1, sampleEvent 2, sampleEvent 3] rngC7).1
      ≠ [sampleEvent 2, sampleEvent 1, sampleEvent 3] := by
  refine ⟨rfl, rfl, by decide, by decide⟩

/-- C7 amended: for a 3-event input with `p_dup = 0`, `p_late = 0`, `p_oo = 1`, when
the draws force the shuffle window to size 2 at offset 0 AND the Fisher-Yates draw
inside the window selects the transposition (as the all-zero stream does), the first
two elements of the main stream are swapped and the third is unchanged in position;
the late stream is empty. -/
theorem c7_amended_swap (e1 e2 e3 : EventRecord) :
    (injectEdgeCases ⟨0, 1, 0⟩ [e1, e2, e3] rngZero).1 = [e2, e1, e3] ∧
    (injectEdgeCases ⟨0, 1, 0⟩ [e1, e2, e3] rngZero).2.1 = [] := by
  constructor <;> with_unfolding_all rfl

/-- C10: the main stream has between `len events` and `2 * len events` elements,
the late stream at most `len events - 1` (truncated subtraction, so `max (n-1) 0`);
in particular an empty input yields an empty main and an empty late stream. -/
theorem c10_output_length_bounds (inj : EdgeCaseInjector) (events : List EventRecord)
    (r : Rng) :
    events.length ≤ (injectEdgeCases inj events r).1.length ∧
    (injectEdgeCases inj events r).1.length ≤ 2 * events.length ∧
    (injectEdgeCases inj events r).2.1.length ≤ events.length - 1 := by
  have hperm := (shufflePhase_perm inj.out_of_order_probability
    (injectPass inj.duplicate_probability inj.late_arrival_probability events 0 r).1
    (injectPass inj.duplicate_probability inj.late_arrival_probability
      events 0 r).2.2).length_eq
  have hbounds := injectPass_length_bounds inj.duplicate_probability
    inj.late_arrival_probability events 0 r
  have hlate := (injectPass_late_sublist_zero inj.duplicate_probability
    inj.late_arrival_probability events r).length_le
  refine ⟨?_, ?_, ?_⟩
  · calc events.length
        ≤ (injectPass inj.duplicate_probability inj.late_arrival_probability
            events 0 r).1.length := hbounds.1
      _ = (injectEdgeCases inj events r).1.length := hperm.symm
  · calc (injectEdgeCases inj events r).1.length
        = (injectPass inj.duplicate_probability inj.late_arrival_probability
            events 0 r).1.length := hperm
      _ ≤ 2 * events.length := hbounds.2
  · simpa using hlate

theorem createPayload_currentTs (seed : Nat) (oid cid rid : String) (ts2 : ℚ)
    (st : LState) (et : EventType) :
    (createPayload seed oid cid rid ts2 st et).2.currentTs = st.currentTs := by
  cases et <;> simp only [createPayload] <;> (try split) <;> rfl

theorem genStep_event_ts (seed : Nat) (oid cid rid : String) (st : LState)
    (et : EventType) :
    (genStep seed oid cid rid st et).1.event_ts
      = pyInt ((genStep seed oid cid rid st et).2.currentTs * 1000) ∧
    st.currentTs + 1 ≤ (genStep seed oid cid rid st et).2.currentTs := by
  unfold genStep createEvent
  constructor
  · dsimp only
    rw [createPayload_currentTs]
  · dsimp only
    rw [createPayload_currentTs]
    dsimp only
    have := randUniform_fst_ge 1 30 st.rng (by norm_num)
    linarith

theorem runSteps_ts_chain (seed : Nat) (oid cid rid : String) :
    ∀ (steps : List EventType) (st : LState),
      List.Chain' (· < ·)
        (pyInt (st.currentTs * 1000)
          :: ((runSteps seed oid cid rid steps st).1.map EventRecord.event_ts))
  | [], st => by simp [runSteps]
  | et :: rest, st => by
      have hstep := genStep_event_ts seed oid cid rid st et
      have ih := runSteps_ts_chain seed oid cid rid rest
        (genStep seed oid cid rid st et).2
      simp only [runSteps, List.map_cons]
      rw [List.chain'_cons]
      constructor
      · rw [hstep.1]
        apply pyInt_lt_pyInt
        nlinarith [hstep.2]
      · rw [hstep.1]
        exact ih

/-- C2: for every generator state, order id and base timestamp, the event
timestamps (integer milliseconds) of the sequence returned by
`generate_order_lifecycle` are strictly increasing across consecutive events,
before any injection. -/
theorem c2_event_ts_strictly_increasing (g : EventGenerator) (oid : String)
    (base_timestamp : ℚ) :
    List.Chain' (fun a b => a.event_ts < b.event_ts)
      (generateOrderLifecycle g oid base_timestamp).1 := by
  rw [← List.chain'_map (f := EventRecord.event_ts) (R := (· < ·))]
  simp only [generateOrderLifecycle]
  exact (runSteps_ts_chain g.seed oid _ _ _ _).tail

/-- C8 counterexample: an `ORDER_UPDATED` step that emits
`old_status = "PENDING"`, `new_status = "CONFIRMED"` leaves the tracked status
variable at `"PENDING"` — it does not become the emitted `new_status`, because the
status-update chain in `generate_order_lifecycle` only handles CONFIRMED /
CANCELLED / COMPLETED event types. -/
theorem c8_counterexample :
    (genStep 0 "o" "c" "r" stC8 .ORDER_UPDATED).1.payload
      = Payload.updated "PENDING" "CONFIRMED" ∧
    (genStep 0 "o" "c" "r" stC8 .ORDER_UPDATED).2.status = "PENDING" ∧
    ("PENDING" : String) ≠ "CONFIRMED" := by
  refine ⟨by decide, by decide, by decide⟩

/-- C8 amended: after an `ORDER_UPDATED` event the generator's tracked status
variable is unchanged (not set to the event's `new_status`); the emitted payload's
`old_status` is exactly that unchanged tracked status, so any subsequent
`ORDER_UPDATED` reports the same `old_status` again rather than the previously
emitted `new_status`. -/
theorem c8_amended_status_unchanged (seed : Nat) (oid cid rid : String)
    (st : LState) :
    (genStep seed oid cid rid st .ORDER_UPDATED).2.status = st.status ∧
    ∃ ns, (genStep seed oid cid rid st .ORDER_UPDATED).1.payload
      = Payload.updated st.status ns := by
  constructor
  · rfl
  · exact ⟨_, rfl⟩

theorem lookupEntry_setEntry_self (k : String) (v : List Item) :
    ∀ m : List (String × List Item), lookupEntry k (setEntry k v m) = some v
  | [] => by simp [setEntry, lookupEntry]
  | e :: m => by
      by_cases h : e.1 = k
      · simp [setEntry, lookupEntry, h]
      · simp only [setEntry, lookupEntry, if_neg h]
        exact lookupEntry_setEntry_self k v m

theorem lookupEntry_setEntry_ne (k k2 : String) (v : List Item) (h : k2 ≠ k) :
    ∀ m : List (String × List Item),
      lookupEntry k2 (setEntry k v m) = lookupEntry k2 m
  | [] => by simp [setEntry, lookupEntry, Ne.symm h]
  | e :: m => by
      by_cases he : e.1 = k
      · simp only [setEntry, if_pos he, lookupEntry, Ne.symm h, if_neg, he]
        simp [he, Ne.symm h]
      · simp only [setEntry, if_neg he, lookupEntry]
        by_cases he2 : e.1 = k2
        · simp [he2]
        · simp only [if_neg he2]
          exact lookupEntry_setEntry_ne k k2 v h m

theorem createPayload_frame (seed : Nat) (oid cid rid : String) (ts2 : ℚ)
    (st : LState) (et : EventType) (k : String) (hk : k ≠ oid) :
    lookupEntry k (createPayload seed oid cid rid ts2 st et).2.order_items
      = lookupEntry k st.order_items := by
  cases et <;> simp only [createPayload] <;> (try split) <;>
    first
      | rfl
      | exact lookupEntry_setEntry_ne oid k _ hk st.order_items

theorem createPayload_keeps_oid (seed : Nat) (oid cid rid : String) (ts2 : ℚ)
    (st : LState) (et : EventType)
    (h : (lookupEntry oid st.order_items).isSome) :
    (lookupEntry oid
      (createPayload seed oid cid rid ts2 st et).2.order_items).isSome := by
  cases et <;> simp only [createPayload] <;> (try split) <;>
    first
      | exact h
      | simp [lookupEntry_setEntry_self]

theorem genStep_frame (seed : Nat) (oid cid rid : String) (st : LState)
    (et : EventType) (k : String) (hk : k ≠ oid) :
    lookupEntry k (genStep seed oid cid rid st et).2.order_items
      = lookupEntry k st.order_items :=
  createPayload_frame seed oid cid rid _ _ et k hk

theorem genStep_keeps_oid (seed : Nat) (oid cid rid : String) (st : LState)
    (et : EventType) (h : (lookupEntry oid st.order_items).isSome) :
    (lookupEntry oid (genStep seed oid cid rid st et).2.order_items).isSome :=
  createPayload_keeps_oid seed oid cid rid _ _ et h

theorem runSteps_frame (seed : Nat) (oid cid rid : String) :
    ∀ (steps : List EventType) (st : LState) (k : String), k ≠ oid →
      lookupEntry k (runSteps seed oid cid rid steps st).2.order_items
        = lookupEntry k st.order_items
  | [], _, _, _ => rfl
  | et :: rest, st, k, hk => by
      simp only [runSteps]
      rw [runSteps_frame seed oid cid rid rest _ k hk]
      exact genStep_frame seed oid cid rid st et k hk

theorem runSteps_keeps_oid (seed : Nat) (oid cid rid : String) :
    ∀ (steps : List EventType) (st : LState),
      (lookupEntry oid st.order_items).isSome →
      (lookupEntry oid
        (runSteps seed oid cid rid steps st).2.order_items).isSome
  | [], _, h => h
  | et :: rest, st, h => by
      simp only [runSteps]
      exact runSteps_keeps_oid seed oid cid rid rest _
        (genStep_keeps_oid seed oid cid rid st et h)

theorem genStep_dict_congr (seed : Nat) (oid cid rid : String) (et : EventType)
    (st1 st2 : LState) (h : DictAgree oid st1 st2) :
    (genStep seed oid cid rid st1 et).1 = (genStep seed oid cid rid st2 et).1 ∧
    DictAgree oid (genStep seed oid cid rid st1 et).2
      (genStep seed oid cid rid st2 et).2 := by
  obtain ⟨r1, f1, en1, ei1, d1, t1, s1⟩ := st1
  obtain ⟨r2, f2, en2, ei2, d2, t2, s2⟩ := st2
  obtain ⟨hr, hf, hen, hei, hd, ht, hs⟩ := h
  dsimp only at hr hf hen hei hd ht hs
  subst hr hf hen hei ht hs
  cases et
  case ORDER_ITEM_REMOVED =>
    simp only [genStep, createEvent, createPayload, lookupD] at hd ⊢
    rw [hd]
    cases hc : (lookupEntry oid d2).getD [] with
    | nil => simp [DictAgree, lookupD, hd]
    | cons x xs => simp [DictAgree, lookupD, hd, lookupEntry_setEntry_self]
  case ORDER_COMPLETED =>
    simp only [genStep, createEvent, createPayload, lookupD] at hd ⊢
    rw [hd]
    split <;> simp [DictAgree, lookupD, hd]
  all_goals
    simp only [genStep, createEvent, createPayload, DictAgree, lookupD] at hd ⊢
  all_goals (try rw [hd])
  all_goals simp_all [lookupEntry_setEntry_self, lookupD]

theorem runSteps_dict_congr (seed : Nat) (oid cid rid : String) :
    ∀ (steps : List EventType) (st1 st2 : LState), DictAgree oid st1 st2 →
      (runSteps seed oid cid rid steps st1).1
        = (runSteps seed oid cid rid steps st2).1
  | [], _, _, _ => rfl
  | et :: rest, st1, st2, h => by
      have hstep := genStep_dict_congr seed oid cid rid et st1 st2 h
      simp only [runSteps]
      rw [hstep.1, runSteps_dict_congr seed oid cid rid rest _ _ hstep.2]

/-- C9 counterexample: after `generate_order_lifecycle("o1", …)` returns, the
generator still holds a nonempty item ledger for `"o1"` in `self.order_items`
(the entry is assigned at the start of the call and never deleted), so per-order
item state IS retained after the call, contradicting the claim. -/
theorem c9_counterexample :
    (lookupEntry "o1"
      ((generateOrderLifecycle (mkEventGenerator 0 eConst) "o1" 0).2.order_items)).isSome
      = true ∧
    lookupEntry "o1"
      ((generateOrderLifecycle (mkEventGenerator 0 eConst) "o1" 0).2.order_items)
      ≠ some [] :=
  ⟨of_decide_eq_true (by with_unfolding_all rfl),
   of_decide_eq_true (by with_unfolding_all rfl)⟩

/-- C9 amended: the ledger entry for `order_id` is reset to `[]` at the start of
each `generate_order_lifecycle` call, so the emitted events are independent of
whatever `order_items` dict the generator held before the call; entries of other
orders are never touched; but the final ledger for `order_id` is retained in the
generator after the call returns (not discarded). -/
theorem c9_amended_ledger_scope (g : EventGenerator)
    (m1 m2 : List (String × List Item)) (oid : String) (ts : ℚ) :
    (generateOrderLifecycle ⟨g.seed, g.rng, g.fakerIdx, g.entropy, g.entropyIdx, m1⟩
        oid ts).1
      = (generateOrderLifecycle ⟨g.seed, g.rng, g.fakerIdx, g.entropy, g.entropyIdx, m2⟩
        oid ts).1 ∧
    (∀ k, k ≠ oid →
      lookupEntry k (generateOrderLifecycle g oid ts).2.order_items
        = lookupEntry k g.order_items) ∧
    (lookupEntry oid (generateOrderLifecycle g oid ts).2.order_items).isSome := by
  refine ⟨?_, ?_, ?_⟩
  · simp only [generateOrderLifecycle]
    apply runSteps_dict_congr
    exact ⟨rfl, rfl, rfl, rfl, by simp [lookupD, lookupEntry_setEntry_self], rfl, rfl⟩
  · intro k hk
    simp only [generateOrderLifecycle]
    rw [runSteps_frame g.seed oid _ _ _ _ k hk]
    exact lookupEntry_setEntry_ne oid k [] hk g.order_items
  · simp only [generateOrderLifecycle]
    apply runSteps_keeps_oid
    simp [lookupEntry_setEntry_self]

/-- Closed witness for the C9 amended theorem at a concrete generator, a key
distinct from the order id, and concrete prior dicts. -/
theorem c9_amended_ledger_scope_witness :
    lookupEntry "k2" (generateOrderLifecycle (mkEventGenerator 0 eConst) "o1" 0).2.order_items
      = lookupEntry "k2" (mkEventGenerator 0 eConst).order_items :=
  (c9_amended_ledger_scope (mkEventGenerator 0 eConst) [] [] "o1" 0).2.1 "k2"
    (by decide)

theorem genStep_entropy_congr (seed : Nat) (oid cid rid : String) (et : EventType)
    (st1 st2 : LState) (h : EntropyAgree st1 st2) :
    eraseId (genStep seed oid cid rid st1 et).1
      = eraseId (genStep seed oid cid rid st2 et).1 ∧
    EntropyAgree (genStep seed oid cid rid st1 et).2
      (genStep seed oid cid rid st2 et).2 := by
  obtain ⟨r1, f1, en1, ei1, d1, t1, s1⟩ := st1
  obtain ⟨r2, f2, en2, ei2, d2, t2, s2⟩ := st2
  obtain ⟨hr, hf, hei, hd, ht, hs⟩ := h
  dsimp only at hr hf hei hd ht hs
  subst hr hf hei hd ht hs
  cases et <;>
    simp only [genStep, createEvent, createPayload, eraseId, EntropyAgree] <;>
    (try split) <;> simp_all

theorem runSteps_entropy_congr (seed : Nat) (oid cid rid : String) :
    ∀ (steps : List EventType) (st1 st2 : LState), EntropyAgree st1 st2 →
      ((runSteps seed oid cid rid steps st1).1).map eraseId
        = ((runSteps seed oid cid rid steps st2).1).map eraseId
  | [], _, _, _ => rfl
  | et :: rest, st1, st2, h => by
      have hstep := genStep_entropy_congr seed oid cid rid et st1 st2 h
      simp only [runSteps, List.map_cons]
      rw [hstep.1, runSteps_entropy_congr seed oid cid rid rest _ _ hstep.2]

/-- C1 counterexample: two generator instances constructed with the same seed need
not produce byte-identical event sequences for the same order_id and
base_timestamp: `event_id` comes from `uuid.uuid4()`, which draws OS entropy
(`os.urandom`) that `random.seed(seed)` / `Faker.seed(seed)` do not control — here
the two instances see different OS entropy and their outputs differ. -/
theorem c1_counterexample :
    (generateOrderLifecycle (mkEventGenerator 0 entA) "o1" 0).1
      ≠ (generateOrderLifecycle (mkEventGenerator 0 entB) "o1" 0).1 :=
  of_decide_eq_true (by with_unfolding_all rfl)

/-- C1 amended: modulo the `event_id` field (the only field fed by `uuid.uuid4()`'s
OS entropy), two generator instances constructed with the same seed produce
identical event sequences for the same order_id and base_timestamp, whatever OS
entropy each sees: every other field of every event is a deterministic function of
the seed's draw sequence, the order_id and the base timestamp. -/
theorem c1_amended_deterministic_modulo_event_id (seed : Nat)
    (ent1 ent2 : Nat → String) (oid : String) (ts : ℚ) :
    ((generateOrderLifecycle (mkEventGenerator seed ent1) oid ts).1).map eraseId
      = ((generateOrderLifecycle (mkEventGenerator seed ent2) oid ts).1).map eraseId := by
  simp only [generateOrderLifecycle, mkEventGenerator]
  exact runSteps_entropy_congr seed oid _ _ _ _ _ ⟨rfl, rfl, rfl, rfl, rfl, rfl⟩

theorem remainingAfter_append (evs : List EventRecord) (e : EventRecord) :
    remainingAfter (evs ++ [e]) = ledgerStep (remainingAfter evs) e := by
  unfold remainingAfter
  rw [List.foldl_append]
  rfl

theorem removeFirstEq_sublist (a : Item) :
    ∀ l : List Item, (removeFirstEq a l).Sublist l
  | [] => List.Sublist.refl []
  | x :: xs => by
      by_cases h : x = a
      · simp only [removeFirstEq, if_pos h]
        exact List.sublist_cons_self x xs
      · simp only [removeFirstEq, if_neg h]
        exact List.Sublist.cons₂ x (removeFirstEq_sublist a xs)

theorem removeFirstById_of_nodup (a : Item) :
    ∀ l : List Item, (l.map Item.item_id).Nodup → a ∈ l →
      removeFirstEq a l = removeFirstById a.item_id l
  | [], _, hm => absurd hm (List.not_mem_nil a)
  | x :: xs, hnd, hm => by
      by_cases h : x = a
      · simp [removeFirstEq, removeFirstById, h]
      · have hm2 : a ∈ xs := by
          rcases List.mem_cons.mp hm with h1 | h1
          · exact absurd h1.symm h
          · exact h1
        have hid : ¬ (x.item_id = a.item_id) := by
          intro hx
          have : x.item_id ∈ xs.map Item.item_id :=
            hx ▸ List.mem_map_of_mem Item.item_id hm2
          exact (List.nodup_cons.mp (by simpa using hnd)).1 this
        simp only [removeFirstEq, if_neg h, removeFirstById, if_neg hid]
        exact congrArg (x :: ·)
          (removeFirstById_of_nodup a xs
            (List.nodup_cons.mp (by simpa using hnd)).2 hm2)

theorem getD_mem_or {α : Type} :
    ∀ (l : List α) (n : Nat) (d : α), l.getD n d ∈ l ∨ l.getD n d = d
  | [], _, _ => Or.inr rfl
  | a :: l, 0, d => Or.inl (by simp)
  | a :: l, n + 1, d => by
      rcases getD_mem_or l n d with h | h
      · exact Or.inl (by simpa using Or.inr h)
      · exact Or.inr (by simpa using h)

theorem itemsTotal_nonneg :
    ∀ l : List Item, (∀ it ∈ l, 1 ≤ it.quantity ∧ (599/100 : ℚ) ≤ it.price) →
      0 ≤ itemsTotal l
  | [], _ => le_refl 0
  | x :: xs, h => by
      have hx := h x (List.mem_cons_self x xs)
      have hxs := itemsTotal_nonneg xs (fun it hit => h it (List.mem_cons_of_mem x hit))
      have hq : (1 : ℚ) ≤ (x.quantity : ℚ) := by exact_mod_cast hx.1
      simp only [itemsTotal, List.map_cons, List.sum_cons]
      have : (0 : ℚ) < x.price * (x.quantity : ℚ) := by nlinarith [hx.2]
      unfold itemsTotal at hxs
      linarith

theorem itemsTotal_pos (l : List Item)
    (h : ∀ it ∈ l, 1 ≤ it.quantity ∧ (599/100 : ℚ) ≤ it.price) (hne : l ≠ []) :
    0 < itemsTotal l := by
  match l with
  | [] => exact absurd rfl hne
  | x :: xs =>
      have hx := h x (List.mem_cons_self x xs)
      have hxs := itemsTotal_nonneg xs (fun it hit => h it (List.mem_cons_of_mem x hit))
      have hq : (1 : ℚ) ≤ (x.quantity : ℚ) := by exact_mod_cast hx.1
      simp only [itemsTotal, List.map_cons, List.sum_cons]
      have : (0 : ℚ) < x.price * (x.quantity : ℚ) := by nlinarith [hx.2]
      unfold itemsTotal at hxs
      linarith

theorem lookupD_setEntry_self (k : String) (v : List Item)
    (m : List (String × List Item)) : lookupD k (setEntry k v m) = v := by
  simp [lookupD, lookupEntry_setEntry_self]

theorem strAppend_left_cancel {p a b : String} (h : p ++ a = p ++ b) : a = b := by
  have hd := congrArg String.data h
  simp only [String.data_append] at hd
  have h2 := List.append_cancel_left hd
  cases a
  cases b
  exact congrArg String.mk (by simpa using h2)

theorem itemId_ne {seed j f : Nat} (h : j ≠ f) :
    "item_" ++ fakerU seed j ≠ "item_" ++ fakerU seed f := by
  intro he
  exact h (fakerU_inj seed (strAppend_left_cancel he))

/-- Quantity bound for the `randint(1, 5)` draw. -/
theorem randIntR_one_le (r : Rng) : 1 ≤ (randIntR 1 5 r).1 := by
  simp only [randIntR]
  omega

/-- Price bound for `round(uniform(5.99, 29.99), 2)`. -/
theorem itemPrice_ge (r : Rng) :
    (599/100 : ℚ) ≤ roundQ2 (randUniform (599/100) (2999/100) r).1 := by
  apply roundQ2_ge
  · norm_num
  · exact randUniform_fst_ge _ _ r (by norm_num)

/-- Fallback bound for `round(uniform(15.99, 99.99), 2)`. -/
theorem fallback_pos (r : Rng) :
    (0 : ℚ) < roundQ2 (randUniform (1599/100) (9999/100) r).1 := by
  have h : (1599/100 : ℚ) ≤ roundQ2 (randUniform (1599/100) (9999/100) r).1 := by
    apply roundQ2_ge
    · norm_num
    · exact randUniform_fst_ge _ _ r (by norm_num)
  linarith

theorem genStep_ledger_inv (seed : Nat) (oid cid rid : String) (st : LState)
    (et : EventType) (evs : List EventRecord) (h : LedgerInv seed oid st evs) :
    LedgerInv seed oid (genStep seed oid cid rid st et).2
      (evs ++ [(genStep seed oid cid rid st et).1]) := by
  obtain ⟨hR, hcond, hnd⟩ := h
  obtain ⟨r, f, en, ei, d, t, s⟩ := st
  dsimp only at hR hcond hnd
  cases et
  case ORDER_CREATED =>
    refine ⟨?_, ?_, ?_⟩ <;>
      simp only [genStep, createEvent, createPayload, remainingAfter_append,
        ledgerStep]
    · exact hR
    · exact hcond
    · exact hnd
  case ORDER_UPDATED =>
    refine ⟨?_, ?_, ?_⟩ <;>
      simp only [genStep, createEvent, createPayload, remainingAfter_append,
        ledgerStep]
    · exact hR
    · exact hcond
    · exact hnd
  case ORDER_CONFIRMED =>
    refine ⟨?_, ?_, ?_⟩ <;>
      simp only [genStep, createEvent, createPayload, remainingAfter_append,
        ledgerStep]
    · exact hR
    · intro it hit
      obtain ⟨hb, j, hj, he⟩ := hcond it hit
      exact ⟨hb, j, by omega, he⟩
    · exact hnd
  case ORDER_CANCELLED =>
    refine ⟨?_, ?_, ?_⟩ <;>
      simp only [genStep, createEvent, createPayload, remainingAfter_append,
        ledgerStep]
    · exact hR
    · intro it hit
      obtain ⟨hb, j, hj, he⟩ := hcond it hit
      exact ⟨hb, j, by omega, he⟩
    · exact hnd
  case ORDER_COMPLETED =>
    simp only [genStep, createEvent, createPayload]
    split <;>
      refine ⟨?_, ?_, ?_⟩ <;>
        simp only [remainingAfter_append, ledgerStep] <;>
        first
          | exact hR
          | exact hcond
          | exact hnd
  case ORDER_ITEM_ADDED =>
    refine ⟨?_, ?_, ?_⟩ <;>
      simp only [genStep, createEvent, createPayload, remainingAfter_append,
        ledgerStep, lookupD_setEntry_self]
    · rw [hR]
    · intro it hit
      rcases List.mem_append.mp hit with hold | hnew
      · obtain ⟨hb, j, hj, he⟩ := hcond it hold
        exact ⟨hb, j, by omega, he⟩
      · have hit2 : it = ⟨"item_" ++ fakerU seed f,
            fakerWord seed (f + 1) ++ " "
              ++ (randChoice ["Burger", "Pizza", "Salad", "Pasta", "Taco"] "Burger"
                  (randUniform 1 30 r).2).1,
            (randIntR 1 5 (randChoice ["Burger", "Pizza", "Salad", "Pasta", "Taco"]
                "Burger" (randUniform 1 30 r).2).2).1,
            roundQ2 (randUniform (599/100) (2999/100)
              (randIntR 1 5 (randChoice ["Burger", "Pizza", "Salad", "Pasta", "Taco"]
                "Burger" (randUniform 1 30 r).2).2).2).1⟩ := by
          simpa using hnew
        subst hit2
        exact ⟨⟨randIntR_one_le _, itemPrice_ge _⟩, f, by omega, rfl⟩
    · rw [List.map_append]
      simp only [List.map_cons, List.map_nil]
      rw [List.Perm.nodup_iff (List.perm_append_singleton _ _), List.nodup_cons]
      refine ⟨?_, hnd⟩
      intro hmem
      obtain ⟨it, hit, hid⟩ := List.mem_map.mp hmem
      obtain ⟨hb, j, hj, he⟩ := hcond it hit
      rw [he] at hid
      exact itemId_ne (by omega : j ≠ f) hid
  case ORDER_ITEM_REMOVED =>
    simp only [genStep, createEvent, createPayload]
    cases hc : lookupD oid d with
    | nil =>
        rw [hc] at hR
        refine ⟨?_, ?_, ?_⟩ <;>
          simp only [remainingAfter_append, ledgerStep, ← hR, removeFirstById]
        · exact hc
        · rw [hc]
          intro it hit
          exact absurd hit (List.not_mem_nil it)
        · rw [hc]
          simp
    | cons x xs =>
        rw [hc] at hR hcond hnd
        have hci : (randChoice (x :: xs) x (randUniform 1 30 r).2).1 ∈ x :: xs := by
          rcases getD_mem_or (x :: xs) ((randUniform 1 30 r).2.next.1 % (x :: xs).length) x
            with hm | hm
          · simpa [randChoice] using hm
          · simp only [randChoice]
            rw [hm]
            exact List.mem_cons_self x xs
        refine ⟨?_, ?_, ?_⟩ <;>
          simp only [remainingAfter_append, ledgerStep, ← hR, lookupD_setEntry_self]
        · exact removeFirstById_of_nodup _ (x :: xs) hnd hci
        · intro it hit
          exact hcond it ((removeFirstEq_sublist _ (x :: xs)).subset hit)
        · exact List.Nodup.sublist
            ((removeFirstEq_sublist _ (x :: xs)).map Item.item_id) hnd

theorem genStep_event_type (seed : Nat) (oid cid rid : String) (st : LState)
    (et : EventType) : (genStep seed oid cid rid st et).1.event_type = et := rfl

theorem genStep_completed_total (seed : Nat) (oid cid rid : String) (st : LState)
    (evs : List EventRecord) (h : LedgerInv seed oid st evs) :
    (remainingAfter evs ≠ [] →
      Payload.totalAmount (genStep seed oid cid rid st .ORDER_COMPLETED).1.payload
        = some (itemsTotal (remainingAfter evs))) ∧
    (remainingAfter evs = [] →
      ∃ tq, Payload.totalAmount
          (genStep seed oid cid rid st .ORDER_COMPLETED).1.payload
        = some tq ∧ 0 < tq) := by
  obtain ⟨hR, hcond, hnd⟩ := h
  constructor
  · intro hne
    have hpos : 0 < itemsTotal (lookupD oid st.order_items) := by
      apply itemsTotal_pos _ (fun it hit => (hcond it hit).1)
      rw [hR]
      exact hne
    simp only [genStep, createEvent, createPayload]
    rw [if_neg (by simpa using ne_of_gt hpos)]
    simp [Payload.totalAmount, hR]
  · intro he
    have hz : itemsTotal (lookupD oid st.order_items) = 0 := by
      rw [hR, he]
      rfl
    simp only [genStep, createEvent, createPayload]
    rw [if_pos (by simpa using hz)]
    exact ⟨_, rfl, fallback_pos _⟩

theorem runSteps_completed (seed : Nat) (oid cid rid : String) :
    ∀ (steps : List EventType) (st : LState) (evs0 : List EventRecord),
      LedgerInv seed oid st evs0 →
      ∀ (k : Nat) (hk : k < (runSteps seed oid cid rid steps st).1.length),
        ((runSteps seed oid cid rid steps st).1.get ⟨k, hk⟩).event_type
          = .ORDER_COMPLETED →
        (remainingAfter (evs0 ++ (runSteps seed oid cid rid steps st).1.take k)
            ≠ [] →
          Payload.totalAmount
              ((runSteps seed oid cid rid steps st).1.get ⟨k, hk⟩).payload
            = some (itemsTotal (remainingAfter
                (evs0 ++ (runSteps seed oid cid rid steps st).1.take k)))) ∧
        (remainingAfter (evs0 ++ (runSteps seed oid cid rid steps st).1.take k)
            = [] →
          ∃ tq, Payload.totalAmount
              ((runSteps seed oid cid rid steps st).1.get ⟨k, hk⟩).payload
            = some tq ∧ 0 < tq)
  | [], _, _, _, _, hk, _ => absurd hk (by simp [runSteps])
  | et :: rest, st, evs0, hinv, 0, hk, ht => by
      simp only [runSteps, List.get_eq_getElem, List.getElem_cons_zero,
        List.take_zero, List.append_nil] at ht ⊢
      rw [genStep_event_type] at ht
      subst ht
      exact genStep_completed_total seed oid cid rid st evs0 hinv
  | et :: rest, st, evs0, hinv, k + 1, hk, ht => by
      have hk2 : k < (runSteps seed oid cid rid rest
          (genStep seed oid cid rid st et).2).1.length := by
        have := hk
        simp only [runSteps, List.length_cons] at this
        omega
      have hinv2 := genStep_ledger_inv seed oid cid rid st et evs0 hinv
      have ih := runSteps_completed seed oid cid rid rest
        (genStep seed oid cid rid st et).2
        (evs0 ++ [(genStep seed oid cid rid st et).1]) hinv2 k hk2
      simp only [runSteps, List.get_eq_getElem, List.getElem_cons_succ,
        List.take_succ_cons] at ht ⊢
      simp only [List.get_eq_getElem] at ih
      have happ : evs0 ++ (genStep seed oid cid rid st et).1
            :: ((runSteps seed oid cid rid rest
              (genStep seed oid cid rid st et).2).1.take k)
          = (evs0 ++ [(genStep seed oid cid rid st et).1])
            ++ ((runSteps seed oid cid rid rest
              (genStep seed oid cid rid st et).2).1.take k) := by
        rw [List.append_assoc]
        rfl
      rw [happ]
      exact ih ht

/-- C3: in every sequence returned by `generate_order_lifecycle`, every
ORDER_COMPLETED event's `total_amount` equals the sum of `quantity * price` over
the items added and not removed earlier in that sequence (read back off the emitted
ITEM_ADDED / ITEM_REMOVED payloads), and when no such items remain it is instead a
strictly positive fallback draw. -/
theorem c3_completed_total (g : EventGenerator) (oid : String) (ts : ℚ) (k : Nat)
    (hk : k < (generateOrderLifecycle g oid ts).1.length)
    (ht : ((generateOrderLifecycle g oid ts).1.get ⟨k, hk⟩).event_type
      = .ORDER_COMPLETED) :
    (remainingAfter ((generateOrderLifecycle g oid ts).1.take k) ≠ [] →
      Payload.totalAmount ((generateOrderLifecycle g oid ts).1.get ⟨k, hk⟩).payload
        = some (itemsTotal
            (remainingAfter ((generateOrderLifecycle g oid ts).1.take k)))) ∧
    (remainingAfter ((generateOrderLifecycle g oid ts).1.take k) = [] →
      ∃ tq, Payload.totalAmount
          ((generateOrderLifecycle g oid ts).1.get ⟨k, hk⟩).payload
        = some tq ∧ 0 < tq) := by
  have hinv0 : LedgerInv g.seed oid
      ⟨(randFloat g.rng).2, g.fakerIdx + 2, g.entropy, g.entropyIdx,
        setEntry oid [] g.order_items, ts, "PENDING"⟩ [] := by
    refine ⟨?_, ?_, ?_⟩ <;> simp [lookupD_setEntry_self, remainingAfter]
  have h := runSteps_completed g.seed oid
    ("cust_" ++ fakerU g.seed g.fakerIdx)
    ("rest_" ++ fakerU g.seed (g.fakerIdx + 1))
    (pickWeighted emptyPattern ORDER_PATTERNS
      ((randFloat g.rng).1 * (ORDER_PATTERNS.map OrderPattern.weight).sum)).events
    ⟨(randFloat g.rng).2, g.fakerIdx + 2, g.entropy, g.entropyIdx,
      setEntry oid [] g.order_items, ts, "PENDING"⟩ [] hinv0 k
  simp only [List.nil_append] at h
  exact h hk ht

/-- Closed witness for C3: a concrete generator run (HAPPY_PATH pattern; the
ORDER_COMPLETED event sits at index 4 and two items remain on the ledger), with
every hypothesis discharged by evaluation. -/
theorem c3_completed_total_witness :
    Payload.totalAmount
        (((generateOrderLifecycle (mkEventGenerator 0 eConst) "o1" 0).1.get
          ⟨4, of_decide_eq_true (by with_unfolding_all rfl)⟩).payload)
      = some (itemsTotal (remainingAfter
          ((generateOrderLifecycle (mkEventGenerator 0 eConst) "o1" 0).1.take 4))) :=
  (c3_completed_total (mkEventGenerator 0 eConst) "o1" 0 4
      (of_decide_eq_true (by with_unfolding_all rfl))
      (of_decide_eq_true (by with_unfolding_all rfl))).1
    (of_decide_eq_true (by with_unfolding_all rfl))

end OrderUp
